import Mathlib

/-
Verification development for the zipstream crate: a shallow embedding of
src/stream_range.rs, src/serve_range.rs, src/zip.rs, src/s3url.rs and
src/upstream.rs, with theorems about the embedded definitions.

Machine integers (u16/u32/u64) are modelled as Nat with explicit `% 2^w`
where the Rust code truncates (`as u16`, `as u32`), and as saturating Nat
subtraction where the code uses `saturating_sub` on unsigned values.
Byte strings are `List Nat`; Rust `&str`/`String` values are `List Char`.
A lazy stream of byte chunks is modelled as the list of chunks it yields.
-/

/-- Closed-open byte interval, from src/stream_range.rs `struct Range`.
The Rust field `end` is spelled `stop` because `end` is a Lean keyword. -/
structure Range where
  start : Nat
  stop : Nat
  deriving DecidableEq, Repr

/-- Rust `Range::len`: `self.end - self.start` (u64 subtraction; the code
only calls it with `start <= end`, Nat subtraction saturates). -/
def Range.len (r : Range) : Nat := r.stop - r.start

/-- Rust `Range::take_prefix(&mut self, len)`: returns the pair
(returned prefix, state of `self` after the call).  The prefix is computed
from the incoming `self`, then both bounds are shifted left by `len` with
`saturating_sub`. -/
def take_prefix (r : Range) (len : Nat) : Option Range × Range :=
  (if r.start < len then some ⟨r.start, min r.stop len⟩ else none,
   ⟨r.start - len, r.stop - len⟩)

/-- The `StreamRange` trait: a sized byte source that can produce any
sub-range as a lazy stream of byte chunks (here: the list of chunks). -/
structure StreamRange where
  len : Nat
  stream_range : Range → List (List Nat)

/-- The bytes yielded by a chunk stream, concatenated. -/
def bytesOf (chunks : List (List Nat)) : List Nat := chunks.flatten

/-- The `impl StreamRange for Bytes`: one chunk holding
`self.slice(range.start, range.end)` of the in-memory buffer. -/
def bytesStream (content : List Nat) : StreamRange where
  len := content.length
  stream_range := fun r => [(content.drop r.start).take (r.stop - r.start)]

/-- Total length of a list of parts, as in `Concatenated::len`:
`self.0.iter().map(|x| x.len()).sum()`. -/
def sumLen (parts : List StreamRange) : Nat := (parts.map (fun p => p.len)).sum

/-- The loop body of `Concatenated::stream_range`: walks the children in
order keeping a working copy of the query range; records, for each child
that yields `Some(inner_range)` from `take_prefix`, the pair
(child, inner range) whose streams are concatenated.  The walk stops as
soon as the working range has length 0. -/
def concatPlan : Range → List StreamRange → List (StreamRange × Range)
  | _, [] => []
  | r, p :: ps =>
    if Range.len r = 0 then []
    else
      match take_prefix r p.len with
      | (some inner, r2) => (p, inner) :: concatPlan r2 ps
      | (none, r2) => concatPlan r2 ps

/-- `Concatenated` from src/stream_range.rs: length is the sum of child
lengths; `stream_range` flattens the per-child streams selected by the
walk, in child order. -/
def Concatenated (parts : List StreamRange) : StreamRange where
  len := sumLen parts
  stream_range := fun r =>
    ((concatPlan r parts).map (fun pc => pc.1.stream_range pc.2)).flatten

/-- The StreamRange contract assumed of the children of a concatenation:
there is a full content of exactly `len` bytes and `stream_range` of any
in-bounds range yields exactly the corresponding substring of it. -/
def Faithful (S : StreamRange) : Prop :=
  ∃ c : List Nat, c.length = S.len ∧ ∀ a b : Nat, a ≤ b → b ≤ S.len →
    bytesOf (S.stream_range ⟨a, b⟩) = (c.drop a).take (b - a)

lemma bytesStream_faithful (content : List Nat) : Faithful (bytesStream content) := by
  refine ⟨content, rfl, fun a b _ _ => ?_⟩
  simp [bytesStream, bytesOf]

lemma sumLen_cons (p : StreamRange) (ps : List StreamRange) :
    sumLen (p :: ps) = p.len + sumLen ps := by
  simp [sumLen]

/-- C7 helper: folding the destructive part of `take_prefix` over child
lengths whose total is at least the range's end empties the range. -/
lemma take_prefix_fold (Ls : List Nat) : ∀ r : Range, r.stop ≤ Ls.sum →
    Range.len (Ls.foldl (fun s l => ( take_prefix s l).2) r) = 0 := by
  induction Ls with
  | nil =>
    intro r h
    simp only [List.sum_nil, Nat.le_zero] at h
    simp [Range.len, h]
  | cons L Ls ih =>
    intro r h
    simp only [List.foldl_cons]
    apply ih
    simp only [ take_prefix]
    simp only [List.sum_cons] at h
    omega

/-- C7: take_prefix returns the overlap `[start, min(end, len))` when
`start < len` and nothing otherwise, shifts the range left by `len`
saturating at zero, and repeated application over child lengths summing
to at least the original end reduces the range to length 0. -/
theorem take_prefix_spec (r : Range) (len : Nat) (hr : r.start ≤ r.stop) :
    ( take_prefix r len).1 =
      (if r.start < len then some ⟨r.start, min r.stop len⟩ else none) ∧
    ( take_prefix r len).2 = ⟨r.start - len, r.stop - len⟩ ∧
    (∀ Ls : List Nat, r.stop ≤ Ls.sum →
      Range.len (Ls.foldl (fun s l => ( take_prefix s l).2) r) = 0) := by
  refine ⟨rfl, rfl, fun Ls h => take_prefix_fold Ls r h⟩

/-- Witness for C7 at `r = [2, 7)`, `len = 4`, children `[4, 2, 3]`. -/
theorem take_prefix_spec_witness :
    (2 ≤ 7 ∧
      ( take_prefix ⟨2, 7⟩ 4).1 =
        (if 2 < 4 then some ⟨2, min 7 4⟩ else none) ∧
      ( take_prefix ⟨2, 7⟩ 4).2 = ⟨2 - 4, 7 - 4⟩ ∧
      (∀ Ls : List Nat, (7:Nat) ≤ Ls.sum →
        Range.len (Ls.foldl (fun s l => ( take_prefix s l).2) ⟨2, 7⟩) = 0)) ∧
    Range.len ([4, 2, 3].foldl (fun s l => ( take_prefix s l).2) ⟨2, 7⟩) = 0 := by
  have h := take_prefix_spec ⟨2, 7⟩ 4 (by decide)
  exact ⟨⟨by decide, h.1, h.2.1, h.2.2⟩, h.2.2 [4, 2, 3] (by decide)⟩

/-- C9: every sub-range handed to a child by the concatenation walk is
non-empty and within the child's bounds. -/
theorem concat_inner_ranges_safe (parts : List StreamRange) :
    ∀ r : Range, r.start ≤ r.stop → r.stop ≤ sumLen parts →
    ∀ pc ∈ concatPlan r parts,
      pc.2.start < pc.2.stop ∧ pc.2.stop ≤ pc.1.len ∧ 1 ≤ pc.2.stop := by
  induction parts with
  | nil => intro r _ _ pc hpc; simp [concatPlan] at hpc
  | cons p ps ih =>
    intro r hr hsum pc hpc
    simp only [concatPlan] at hpc
    by_cases h0 : Range.len r = 0
    · simp [h0] at hpc
    · simp only [h0, if_false] at hpc
      have hlt : r.start < r.stop := by
        simp only [Range.len] at h0; omega
      by_cases hs : r.start < p.len
      · simp only [ take_prefix, hs, if_true] at hpc
        rcases List.mem_cons.mp hpc with h | h
        · subst h
          refine ⟨by simp; omega, by simp, by simp; omega⟩
        · exact ih ⟨r.start - p.len, r.stop - p.len⟩
            (show r.start - p.len ≤ r.stop - p.len by omega)
            (show r.stop - p.len ≤ sumLen ps by
              rw [sumLen_cons] at hsum; omega) pc h
      · simp only [ take_prefix, hs, if_false] at hpc
        exact ih ⟨r.start - p.len, r.stop - p.len⟩
          (show r.start - p.len ≤ r.stop - p.len by omega)
          (show r.stop - p.len ≤ sumLen ps by
            rw [sumLen_cons] at hsum; omega) pc hpc

/-- Witness for C9 on one in-memory child of length 3 and query `[1, 3)`. -/
theorem concat_inner_ranges_safe_witness :
    ((1 ≤ 3 ∧ (3:Nat) ≤ sumLen [ bytesStream [9, 9, 9]]) ∧
      ((bytesStream [9, 9, 9], (⟨1, 3⟩ : Range)) ∈
        concatPlan ⟨1, 3⟩ [ bytesStream [9, 9, 9]])) ∧
    ((bytesStream [9, 9, 9], (⟨1, 3⟩ : Range)).2.start <
        (bytesStream [9, 9, 9], (⟨1, 3⟩ : Range)).2.stop ∧
      (bytesStream [9, 9, 9], (⟨1, 3⟩ : Range)).2.stop ≤
        (bytesStream [9, 9, 9], (⟨1, 3⟩ : Range)).1.len ∧
      1 ≤ (bytesStream [9, 9, 9], (⟨1, 3⟩ : Range)).2.stop) := by
  have hmem : (bytesStream [9, 9, 9], (⟨1, 3⟩ : Range)) ∈
      concatPlan ⟨1, 3⟩ [ bytesStream [9, 9, 9]] := by
    simp [concatPlan, take_prefix, bytesStream, Range.len]
  refine ⟨⟨⟨by decide, by simp [sumLen, bytesStream]⟩, hmem⟩, ?_⟩
  exact concat_inner_ranges_safe [ bytesStream [9, 9, 9]] ⟨1, 3⟩ (by decide)
    (by simp [sumLen, bytesStream]) _ hmem

lemma slice_append_split (cp cs : List Nat) (a b : Nat)
    (haL : a < cp.length) (hab : a < b) :
    ((cp ++ cs).drop a).take (b - a) =
      (cp.drop a).take (min b cp.length - a) ++
      (cs.drop (a - cp.length)).take ((b - cp.length) - (a - cp.length)) := by
  rw [List.drop_append_eq_append_drop, List.take_append_eq_append_take]
  have h1 : (cp.drop a).take (b - a) = (cp.drop a).take (min b cp.length - a) := by
    rw [List.take_eq_take]
    simp only [List.length_drop]
    omega
  have h2 : (b - a) - (cp.drop a).length = (b - cp.length) - (a - cp.length) := by
    simp only [List.length_drop]
    omega
  rw [h1, h2]

lemma slice_append_right (cp cs : List Nat) (a b : Nat) (haL : cp.length ≤ a) :
    ((cp ++ cs).drop a).take (b - a) =
      (cs.drop (a - cp.length)).take ((b - cp.length) - (a - cp.length)) := by
  rw [List.drop_append_eq_append_drop, List.drop_eq_nil_of_le haL, List.nil_append]
  have h : b - a = (b - cp.length) - (a - cp.length) := by omega
  rw [h]

/-- The heart of the concatenation subset law: the bytes produced by the
child walk for a query `[a, b)` are the corresponding slice of the
concatenation of the children's full contents. -/
lemma concat_faithful_aux (parts : List StreamRange)
    (h : ∀ p ∈ parts, Faithful p) :
    ∃ c : List Nat, c.length = sumLen parts ∧ ∀ a b : Nat, a ≤ b → b ≤ sumLen parts →
      ((concatPlan ⟨a, b⟩ parts).map (fun pc => bytesOf (pc.1.stream_range pc.2))).flatten =
        (c.drop a).take (b - a) := by
  induction parts with
  | nil =>
    refine ⟨[], by simp [sumLen], fun a b _ _ => ?_⟩
    simp [concatPlan]
  | cons p ps ih =>
    obtain ⟨cp, hcp_len, hcp⟩ := h p (List.mem_cons_self p ps)
    obtain ⟨cs, hcs_len, hcs⟩ := ih (fun q hq => h q (List.mem_cons_of_mem p hq))
    refine ⟨cp ++ cs, by simp [sumLen_cons, hcp_len, hcs_len], fun a b hab hb => ?_⟩
    rw [sumLen_cons] at hb
    by_cases h0 : b - a = 0
    · have hba : a = b := by omega
      simp [concatPlan, Range.len, h0, hba]
    · have hab' : a < b := by omega
      simp only [concatPlan, Range.len, h0, if_false]
      by_cases hs : a < p.len
      · simp only [ take_prefix, hs, if_true, List.map_cons, List.flatten_cons]
        rw [hcp a (min b p.len) (by omega) (by omega),
            hcs (a - p.len) (b - p.len) (by omega) (by omega),
            slice_append_split cp cs a b (by omega) hab', hcp_len]
      · simp only [ take_prefix, hs, if_false]
        rw [hcs (a - p.len) (b - p.len) (by omega) (by omega),
            slice_append_right cp cs a b (by omega), hcp_len]

/-- A concatenation of children that satisfy the StreamRange contract
satisfies it itself. -/
lemma concat_faithful (parts : List StreamRange)
    (h : ∀ p ∈ parts, Faithful p) : Faithful (Concatenated parts) := by
  obtain ⟨c, hlen, hc⟩ := concat_faithful_aux parts h
  refine ⟨c, hlen, fun a b hab hb => ?_⟩
  have : bytesOf ((Concatenated parts).stream_range ⟨a, b⟩) =
      ((concatPlan ⟨a, b⟩ parts).map
        (fun pc => bytesOf (pc.1.stream_range pc.2))).flatten := by
    simp only [Concatenated, bytesOf, List.flatten_flatten, List.map_map]
    rfl
  rw [this]
  exact hc a b hab hb

/-- The subset law stated directly: any faithful StreamRange serves every
sub-range as the slice of its full stream. -/
lemma faithful_subset_law (S : StreamRange) (hS : Faithful S)
    (a b : Nat) (hab : a ≤ b) (hb : b ≤ S.len) :
    bytesOf (S.stream_range ⟨a, b⟩) =
      ((bytesOf (S.stream_range ⟨0, S.len⟩)).drop a).take (b - a) := by
  obtain ⟨c, hlen, hc⟩ := hS
  rw [hc a b hab hb, hc 0 S.len (Nat.zero_le _) le_rfl]
  simp [← hlen]

/-- A UTC instant as chrono's accessors expose it: calendar fields plus the
Unix timestamp.  `year` is the i32 chrono returns; the other accessors are
non-negative. -/
structure DateTime where
  year : Int
  month : Nat
  day : Nat
  hour : Nat
  minute : Nat
  second : Nat
  timestamp : Int
  deriving DecidableEq, Repr

/-- i32 `saturating_sub`: saturates at the i32 bounds (not at zero). -/
def i32SatSub (a b : Int) : Int :=
  if 2147483647 < a - b then 2147483647
  else if a - b < -2147483648 then -2147483648
  else a - b

/-- Rust `as u16` on a signed value: two's-complement truncation. -/
def intAsU16 (i : Int) : Nat := (i % 65536).toNat

/-- Rust `as u32` on a signed value: two's-complement truncation. -/
def intAsU32 (i : Int) : Nat := (i % 4294967296).toNat

/-- src/zip.rs `zip_date`: `day | month << 5 | year << 9` over u16, where
`year = t.year().saturating_sub(1980) as u16`. -/
def zip_date (t : DateTime) : Nat :=
  let year := intAsU16 (i32SatSub t.year 1980)
  let month := t.month % 65536
  let day := t.day % 65536
  (day ||| (month <<< 5) % 65536) ||| (year <<< 9) % 65536

/-- src/zip.rs `zip_time`: `second | minute << 5 | hour << 11` over u16,
with `second = t.second() / 2`. -/
def zip_time (t : DateTime) : Nat :=
  let second := (t.second / 2) % 65536
  let minute := t.minute % 65536
  let hour := t.hour % 65536
  (second ||| (minute <<< 5) % 65536) ||| (hour <<< 11) % 65536

/-- `put_u8`: one byte. -/
def u8 (n : Nat) : List Nat := [n % 256]

/-- `put_u16_le`: two little-endian bytes.  Taking each byte modulo 256
makes `u16le n = u16le (n % 2^16)`, which is exactly Rust's `as u16`. -/
def u16le (n : Nat) : List Nat := [n % 256, n / 256 % 256]

/-- `put_u32_le`: four little-endian bytes. -/
def u32le (n : Nat) : List Nat :=
  [n % 256, n / 256 % 256, n / 65536 % 256, n / 16777216 % 256]

/-- `put_u64_le`: eight little-endian bytes. -/
def u64le (n : Nat) : List Nat :=
  [n % 256, n / 256 % 256, n / 65536 % 256, n / 16777216 % 256,
   n / 4294967296 % 256, n / 1099511627776 % 256,
   n / 281474976710656 % 256, n / 72057594037927936 % 256]

/-- A file to be included in the archive, from src/zip.rs `ZipEntry`.
`archive_path` is the UTF-8 byte string of the filename. -/
structure ZipEntry where
  archive_path : List Nat
  data : StreamRange
  crc : Nat
  last_modified : DateTime

/-- Options passed to `zip_stream`, from src/zip.rs `ZipOptions`. -/
structure ZipOptions where
  force_zip64 : Bool
  deriving DecidableEq, Repr

/-- The local-file-header ZIP64 trigger from src/zip.rs:
`file.data.len() >= 0xFFFFFFFF || force_zip64`. -/
def lfh_needs_zip64 (file : ZipEntry) (force_zip64 : Bool) : Bool :=
  decide (4294967295 ≤ file.data.len) || force_zip64

/-- The central-directory-header ZIP64 trigger from src/zip.rs:
`file.data.len() >= 0xFFFFFFFF || offset >= 0xFFFFFFFF || force_zip64`. -/
def cdfh_needs_zip64 (file : ZipEntry) (offset : Nat) (force_zip64 : Bool) : Bool :=
  decide (4294967295 ≤ file.data.len) || decide (4294967295 ≤ offset) || force_zip64

/-- The end-of-central-directory ZIP64 trigger from src/zip.rs:
`num_entries >= 0xFFFF || size_of_central_directory >= 0xFFFFFFFF ||
 central_directory_offset >= 0xFFFFFFFF || force_zip64`. -/
def eocd_needs_zip64 (central_directory_offset size_of_central_directory
    num_entries : Nat) (force_zip64 : Bool) : Bool :=
  decide (65535 ≤ num_entries) ||
  decide (4294967295 ≤ size_of_central_directory) ||
  decide (4294967295 ≤ central_directory_offset) || force_zip64

/-- src/zip.rs `local_file_header`, byte for byte. -/
def local_file_header (file : ZipEntry) (force_zip64 : Bool) : List Nat :=
  let needs_zip64 := lfh_needs_zip64 file force_zip64
  u32le 0x04034b50 ++
  u16le (if needs_zip64 then 45 else 20) ++
  u16le 0 ++
  u16le 0 ++
  u16le (zip_time file.last_modified) ++
  u16le (zip_date file.last_modified) ++
  u32le file.crc ++
  (if needs_zip64 then u32le 0xFFFFFFFF ++ u32le 0xFFFFFFFF
   else u32le file.data.len ++ u32le file.data.len) ++
  u16le file.archive_path.length ++
  u16le ((if needs_zip64 then 20 else 0) + 9) ++
  file.archive_path ++
  (if needs_zip64 then
    u16le 0x0001 ++ u16le 16 ++ u64le file.data.len ++ u64le file.data.len
   else []) ++
  u16le 0x5455 ++ u16le 5 ++ u8 1 ++ u32le (intAsU32 file.last_modified.timestamp)

/-- src/zip.rs `central_directory_file_header`, byte for byte. -/
def central_directory_file_header (file : ZipEntry) (offset : Nat)
    (force_zip64 : Bool) : List Nat :=
  let needs_zip64 := cdfh_needs_zip64 file offset force_zip64
  u32le 0x02014b50 ++
  u8 20 ++
  u8 3 ++
  u16le (if needs_zip64 then 45 else 20) ++
  u16le 0 ++
  u16le 0 ++
  u16le (zip_time file.last_modified) ++
  u16le (zip_date file.last_modified) ++
  u32le file.crc ++
  (if needs_zip64 then u32le 0xFFFFFFFF ++ u32le 0xFFFFFFFF
   else u32le file.data.len ++ u32le file.data.len) ++
  u16le file.archive_path.length ++
  u16le ((if needs_zip64 then 28 else 0) + 9) ++
  u16le 0 ++
  u16le 0 ++
  u16le 0 ++
  u32le 0x81A40000 ++
  (if needs_zip64 then u32le 0xFFFFFFFF else u32le offset) ++
  file.archive_path ++
  (if needs_zip64 then
    u16le 0x0001 ++ u16le 24 ++ u64le file.data.len ++ u64le file.data.len ++
    u64le offset
   else []) ++
  u16le 0x5455 ++ u16le 5 ++ u8 1 ++ u32le (intAsU32 file.last_modified.timestamp)

/-- src/zip.rs `end_of_central_directory`, byte for byte. -/
def end_of_central_directory (central_directory_offset : Nat)
    (size_of_central_directory : Nat) (num_entries : Nat)
    (force_zip64 : Bool) : List Nat :=
  (if eocd_needs_zip64 central_directory_offset size_of_central_directory
      num_entries force_zip64 then
    u32le 0x06064b50 ++
    u64le (56 - 12) ++
    u16le 45 ++
    u16le 45 ++
    u32le 0 ++
    u32le 0 ++
    u64le num_entries ++
    u64le num_entries ++
    u64le size_of_central_directory ++
    u64le central_directory_offset ++
    u32le 0x07064b50 ++
    u32le 0 ++
    u64le (central_directory_offset + size_of_central_directory) ++
    u32le 1
   else []) ++
  u32le 0x06054b50 ++
  u16le 0 ++
  u16le 0 ++
  u16le (if 65535 ≤ num_entries then 65535 else num_entries) ++
  u16le (if 65535 ≤ num_entries then 65535 else num_entries) ++
  u32le (if 4294967295 ≤ size_of_central_directory then 4294967295
         else size_of_central_directory) ++
  u32le (if 4294967295 ≤ central_directory_offset then 4294967295
         else central_directory_offset) ++
  u16le 0

/-- The loop of src/zip.rs `zip_stream`: accumulates the data parts
(local header then entry data, per entry), the central-directory parts,
and the running offset. -/
def buildParts : List ZipEntry → Nat → Bool → List StreamRange × List StreamRange × Nat
  | [], off, _ => ([], [], off)
  | f :: fs, off, fz =>
    let lh := local_file_header f fz
    let ch := central_directory_file_header f off fz
    let rest := buildParts fs (off + lh.length + f.data.len) fz
    (bytesStream lh :: f.data :: rest.1, bytesStream ch :: rest.2.1, rest.2.2)

/-- src/zip.rs `zip_stream`: the data parts, then the central directory
parts, then the end-of-central-directory trailer, as one concatenation. -/
def zip_stream (files : List ZipEntry) (options : ZipOptions) : StreamRange :=
  let b := buildParts files 0 options.force_zip64
  let num_entries := b.2.1.length
  let size_of_central_directory := sumLen b.2.1
  Concatenated (b.1 ++ b.2.1 ++
    [ bytesStream (end_of_central_directory b.2.2 size_of_central_directory
        num_entries options.force_zip64)])

lemma buildParts_faithful (files : List ZipEntry) :
    ∀ off fz, (∀ f ∈ files, Faithful f.data) →
    (∀ p ∈ (buildParts files off fz).1, Faithful p) ∧
    (∀ p ∈ (buildParts files off fz).2.1, Faithful p) := by
  induction files with
  | nil => intro off fz _; constructor <;> intro p hp <;> simp [buildParts] at hp
  | cons f fs ih =>
    intro off fz h
    obtain ⟨ih1, ih2⟩ := ih (off + (local_file_header f fz).length + f.data.len) fz
      (fun g hg => h g (List.mem_cons_of_mem f hg))
    constructor
    · intro p hp
      simp only [buildParts, List.mem_cons] at hp
      rcases hp with h1 | h1 | h1
      · exact h1 ▸ bytesStream_faithful _
      · exact h1 ▸ h f (List.mem_cons_self f fs)
      · exact ih1 p h1
    · intro p hp
      simp only [buildParts, List.mem_cons] at hp
      rcases hp with h1 | h1
      · exact h1 ▸ bytesStream_faithful _
      · exact ih2 p h1

/-- C1: the concatenation subset law for archives built by `zip_stream`:
assuming every entry's data satisfies the StreamRange contract, the bytes
of any sub-range `[a, b)` of the archive equal the slice `[a, b)` of the
bytes of the full stream. -/
theorem zip_stream_subset_law (files : List ZipEntry) (options : ZipOptions)
    (hf : ∀ f ∈ files, Faithful f.data) (a b : Nat) (hab : a ≤ b)
    (hb : b ≤ (zip_stream files options).len) :
    bytesOf ((zip_stream files options).stream_range ⟨a, b⟩) =
      ((bytesOf ((zip_stream files options).stream_range
        ⟨0, (zip_stream files options).len⟩)).drop a).take (b - a) := by
  apply faithful_subset_law _ _ _ _ hab hb
  apply concat_faithful
  intro p hp
  simp only [zip_stream, List.mem_append, List.mem_singleton] at hp
  obtain ⟨h1, h2⟩ := buildParts_faithful files 0 options.force_zip64 hf
  rcases hp with (h | h) | h
  · exact h1 p h
  · exact h2 p h
  · exact h ▸ bytesStream_faithful _

/-- A concrete two-byte in-memory entry used to instantiate theorems. -/
def sampleEntry : ZipEntry where
  archive_path := [120]
  data := bytesStream [65, 66]
  crc := 0
  last_modified := ⟨2006, 10, 11, 15, 40, 56, 1160581256⟩

/-- Witness for C1: the subset law applied to a concrete one-entry archive
and the sub-range `[1, 3)`. -/
theorem zip_stream_subset_law_witness :
    ((∀ f ∈ [sampleEntry], Faithful f.data) ∧ 1 ≤ 3 ∧
      3 ≤ (zip_stream [sampleEntry] ⟨false⟩).len) ∧
    bytesOf ((zip_stream [sampleEntry] ⟨false⟩).stream_range ⟨1, 3⟩) =
      ((bytesOf ((zip_stream [sampleEntry] ⟨false⟩).stream_range
        ⟨0, (zip_stream [sampleEntry] ⟨false⟩).len⟩)).drop 1).take (3 - 1) := by
  have hf : ∀ f ∈ [sampleEntry], Faithful f.data := by
    intro f hf
    rw [List.mem_singleton] at hf
    subst hf
    exact bytesStream_faithful [65, 66]
  refine ⟨⟨hf, by decide, by decide⟩, ?_⟩
  exact zip_stream_subset_law [sampleEntry] ⟨false⟩ hf 1 3 (by decide) (by decide)

lemma drop_at_append {α : Type} (pre mid post : List α) (n : Nat)
    (h : pre.length + mid.length = n) :
    (pre ++ mid ++ post).drop n = post := by
  rw [List.append_assoc, List.drop_append_eq_append_drop,
      List.drop_append_eq_append_drop,
      List.drop_eq_nil_of_le (by omega : pre.length ≤ n),
      List.drop_eq_nil_of_le (by omega : mid.length ≤ n - pre.length),
      List.nil_append, List.nil_append]
  have h0 : n - pre.length - mid.length = 0 := by omega
  rw [h0, List.drop_zero]

/-- The local file header carries the ZIP64 shape: version-needed 45,
`0xFFFFFFFF` size sentinels, and the ZIP64 extra field (tag `0x0001`,
size 16) right after the file name. -/
def lfhZip64 (file : ZipEntry) (force_zip64 : Bool) : Prop :=
  ((local_file_header file force_zip64).drop 4).take 2 = u16le 45 ∧
  ((local_file_header file force_zip64).drop 18).take 8 =
    u32le 0xFFFFFFFF ++ u32le 0xFFFFFFFF ∧
  ((local_file_header file force_zip64).drop
      (30 + file.archive_path.length)).take 4 = u16le 0x0001 ++ u16le 16

/-- The local file header carries the 32-bit shape: version-needed 20, the
real sizes, and no ZIP64 extra field (only the 9-byte timestamp extra). -/
def lfhPlain (file : ZipEntry) (force_zip64 : Bool) : Prop :=
  ((local_file_header file force_zip64).drop 4).take 2 = u16le 20 ∧
  ((local_file_header file force_zip64).drop 18).take 8 =
    u32le file.data.len ++ u32le file.data.len ∧
  (local_file_header file force_zip64).length =
    30 + file.archive_path.length + 9

/-- The central directory file header carries the ZIP64 shape:
version-needed 45, size and offset sentinels, and the ZIP64 extra field
(tag `0x0001`, size 24) right after the file name. -/
def cdfhZip64 (file : ZipEntry) (offset : Nat) (force_zip64 : Bool) : Prop :=
  ((central_directory_file_header file offset force_zip64).drop 6).take 2 =
    u16le 45 ∧
  ((central_directory_file_header file offset force_zip64).drop 20).take 8 =
    u32le 0xFFFFFFFF ++ u32le 0xFFFFFFFF ∧
  ((central_directory_file_header file offset force_zip64).drop 42).take 4 =
    u32le 0xFFFFFFFF ∧
  ((central_directory_file_header file offset force_zip64).drop
      (46 + file.archive_path.length)).take 4 = u16le 0x0001 ++ u16le 24

/-- The central directory file header carries the 32-bit shape:
version-needed 20, real sizes and offset, and no ZIP64 extra field. -/
def cdfhPlain (file : ZipEntry) (offset : Nat) (force_zip64 : Bool) : Prop :=
  ((central_directory_file_header file offset force_zip64).drop 6).take 2 =
    u16le 20 ∧
  ((central_directory_file_header file offset force_zip64).drop 20).take 8 =
    u32le file.data.len ++ u32le file.data.len ∧
  ((central_directory_file_header file offset force_zip64).drop 42).take 4 =
    u32le offset ∧
  (central_directory_file_header file offset force_zip64).length =
    46 + file.archive_path.length + 9

lemma lfh_eq_zip64 (file : ZipEntry) (force_zip64 : Bool)
    (h : lfh_needs_zip64 file force_zip64 = true) :
    local_file_header file force_zip64 =
      (u32le 0x04034b50 ++ u16le 45 ++ u16le 0 ++ u16le 0 ++
       u16le (zip_time file.last_modified) ++
       u16le (zip_date file.last_modified) ++
       u32le file.crc ++ u32le 0xFFFFFFFF ++ u32le 0xFFFFFFFF ++
       u16le file.archive_path.length ++ u16le 29) ++
      file.archive_path ++
      (u16le 0x0001 ++ u16le 16 ++ u64le file.data.len ++
       u64le file.data.len ++ u16le 0x5455 ++ u16le 5 ++ u8 1 ++
       u32le (intAsU32 file.last_modified.timestamp)) := by
  simp only [local_file_header, h]
  simp [List.append_assoc]

lemma lfh_eq_plain (file : ZipEntry) (force_zip64 : Bool)
    (h : lfh_needs_zip64 file force_zip64 = false) :
    local_file_header file force_zip64 =
      (u32le 0x04034b50 ++ u16le 20 ++ u16le 0 ++ u16le 0 ++
       u16le (zip_time file.last_modified) ++
       u16le (zip_date file.last_modified) ++
       u32le file.crc ++ u32le file.data.len ++ u32le file.data.len ++
       u16le file.archive_path.length ++ u16le 9) ++
      file.archive_path ++
      (u16le 0x5455 ++ u16le 5 ++ u8 1 ++
       u32le (intAsU32 file.last_modified.timestamp)) := by
  simp only [local_file_header, h]
  simp [List.append_assoc]

lemma cdfh_eq_zip64 (file : ZipEntry) (offset : Nat) (force_zip64 : Bool)
    (h : cdfh_needs_zip64 file offset force_zip64 = true) :
    central_directory_file_header file offset force_zip64 =
      (u32le 0x02014b50 ++ u8 20 ++ u8 3 ++ u16le 45 ++ u16le 0 ++ u16le 0 ++
       u16le (zip_time file.last_modified) ++
       u16le (zip_date file.last_modified) ++
       u32le file.crc ++ u32le 0xFFFFFFFF ++ u32le 0xFFFFFFFF ++
       u16le file.archive_path.length ++ u16le 37 ++ u16le 0 ++ u16le 0 ++
       u16le 0 ++ u32le 0x81A40000 ++ u32le 0xFFFFFFFF) ++
      file.archive_path ++
      (u16le 0x0001 ++ u16le 24 ++ u64le file.data.len ++
       u64le file.data.len ++ u64le offset ++ u16le 0x5455 ++ u16le 5 ++
       u8 1 ++ u32le (intAsU32 file.last_modified.timestamp)) := by
  simp only [central_directory_file_header, h]
  simp [List.append_assoc]

lemma cdfh_eq_plain (file : ZipEntry) (offset : Nat) (force_zip64 : Bool)
    (h : cdfh_needs_zip64 file offset force_zip64 = false) :
    central_directory_file_header file offset force_zip64 =
      (u32le 0x02014b50 ++ u8 20 ++ u8 3 ++ u16le 20 ++ u16le 0 ++ u16le 0 ++
       u16le (zip_time file.last_modified) ++
       u16le (zip_date file.last_modified) ++
       u32le file.crc ++ u32le file.data.len ++ u32le file.data.len ++
       u16le file.archive_path.length ++ u16le 9 ++ u16le 0 ++ u16le 0 ++
       u16le 0 ++ u32le 0x81A40000 ++ u32le offset) ++
      file.archive_path ++
      (u16le 0x5455 ++ u16le 5 ++ u8 1 ++
       u32le (intAsU32 file.last_modified.timestamp)) := by
  simp only [central_directory_file_header, h]
  simp [List.append_assoc]

lemma lfh_needs_iff (file : ZipEntry) (force_zip64 : Bool) :
    lfh_needs_zip64 file force_zip64 = true ↔
      (force_zip64 = true ∨ 4294967295 ≤ file.data.len) := by
  simp [lfh_needs_zip64, or_comm]

lemma cdfh_needs_iff (file : ZipEntry) (offset : Nat) (force_zip64 : Bool) :
    cdfh_needs_zip64 file offset force_zip64 = true ↔
      (force_zip64 = true ∨ 4294967295 ≤ file.data.len ∨ 4294967295 ≤ offset) := by
  simp [cdfh_needs_zip64]
  tauto

/-- C4 (amended): the local file header has the ZIP64 shape iff
`force_zip64 ∨ data.len ≥ 0xFFFFFFFF`, the central directory file header
has it iff `force_zip64 ∨ data.len ≥ 0xFFFFFFFF ∨ offset ≥ 0xFFFFFFFF`,
and otherwise the real 32-bit sizes/offset appear and no ZIP64 extra
field is emitted. -/
theorem zip64_header_trigger (file : ZipEntry) (offset : Nat)
    (force_zip64 : Bool) :
    (lfhZip64 file force_zip64 ↔
      (force_zip64 = true ∨ 4294967295 ≤ file.data.len)) ∧
    (¬(force_zip64 = true ∨ 4294967295 ≤ file.data.len) →
      lfhPlain file force_zip64) ∧
    (cdfhZip64 file offset force_zip64 ↔
      (force_zip64 = true ∨ 4294967295 ≤ file.data.len ∨
        4294967295 ≤ offset)) ∧
    (¬(force_zip64 = true ∨ 4294967295 ≤ file.data.len ∨
        4294967295 ≤ offset) →
      cdfhPlain file offset force_zip64) := by
  refine ⟨⟨fun hz => ?_, fun hc => ?_⟩, fun hc => ?_, ⟨fun hz => ?_, fun hc => ?_⟩, fun hc => ?_⟩
  · by_contra hc
    have hnd : lfh_needs_zip64 file force_zip64 = false := by
      rw [Bool.eq_false_iff]
      exact fun h => hc ((lfh_needs_iff file force_zip64).mp h)
    obtain ⟨h1, _, _⟩ := hz
    rw [lfh_eq_plain file force_zip64 hnd] at h1
    simp [u16le, u32le, u8] at h1
  · have hnd : lfh_needs_zip64 file force_zip64 = true :=
      (lfh_needs_iff file force_zip64).mpr hc
    rw [lfhZip64, lfh_eq_zip64 file force_zip64 hnd]
    refine ⟨rfl, rfl, ?_⟩
    rw [drop_at_append _ _ _ _ (by simp [u16le, u32le, u8])]
    rfl
  · have hnd : lfh_needs_zip64 file force_zip64 = false := by
      rw [Bool.eq_false_iff]
      exact fun h => hc ((lfh_needs_iff file force_zip64).mp h)
    rw [lfhPlain, lfh_eq_plain file force_zip64 hnd]
    refine ⟨rfl, rfl, ?_⟩
    simp [u16le, u32le, u8, u64le]
    omega
  · by_contra hc
    have hnd : cdfh_needs_zip64 file offset force_zip64 = false := by
      rw [Bool.eq_false_iff]
      exact fun h => hc ((cdfh_needs_iff file offset force_zip64).mp h)
    obtain ⟨h1, _, _, _⟩ := hz
    rw [cdfh_eq_plain file offset force_zip64 hnd] at h1
    simp [u16le, u32le, u8] at h1
  · have hnd : cdfh_needs_zip64 file offset force_zip64 = true :=
      (cdfh_needs_iff file offset force_zip64).mpr hc
    rw [cdfhZip64, cdfh_eq_zip64 file offset force_zip64 hnd]
    refine ⟨?_, ?_, ?_, ?_⟩
    · simp [u16le, u32le, u8]
    · simp [u16le, u32le, u8]
    · simp [u16le, u32le, u8]
    · rw [drop_at_append _ _ _ _ (by simp [u16le, u32le, u8])]
      rfl
  · have hnd : cdfh_needs_zip64 file offset force_zip64 = false := by
      rw [Bool.eq_false_iff]
      exact fun h => hc ((cdfh_needs_iff file offset force_zip64).mp h)
    rw [cdfhPlain, cdfh_eq_plain file offset force_zip64 hnd]
    refine ⟨?_, ?_, ?_, ?_⟩
    · simp [u16le, u32le, u8]
    · simp [u16le, u32le, u8]
    · simp [u16le, u32le, u8]
    · simp [u16le, u32le, u8, u64le]
      omega

/-- A data source whose length is exactly `0xFFFFFFFF = 2^32 - 1`. -/
def hugeStream : StreamRange where
  len := 4294967295
  stream_range := fun _ => []

/-- An entry whose data length is `2^32 - 1`. -/
def hugeEntry : ZipEntry where
  archive_path := [120]
  data := hugeStream
  crc := 0
  last_modified := ⟨2006, 10, 11, 15, 40, 56, 1160581256⟩

/-- Counterexample to C4 as stated: at data length `2^32 - 1` (which is
below the claim's `2^32` threshold) and `force_zip64 = false`, the code
emits the ZIP64 local file header anyway (the code's trigger is
`len >= 0xFFFFFFFF`, not `len >= 2^32`). -/
theorem zip64_header_trigger_cex :
    ¬(false = true ∨ 4294967296 ≤ hugeEntry.data.len) ∧
    lfhZip64 hugeEntry false ∧
    (local_file_header hugeEntry false).length ≠
      30 + hugeEntry.archive_path.length + 9 := by
  refine ⟨by decide, ⟨?_, ?_, ?_⟩, by decide⟩ <;> decide

/-- Witness for C4 at a small entry (`len = 2`, `offset = 3`,
`force_zip64 = false`): neither header uses ZIP64. -/
theorem zip64_header_trigger_witness :
    (¬(false = true ∨ 4294967295 ≤ sampleEntry.data.len) ∧
      ¬(false = true ∨ 4294967295 ≤ sampleEntry.data.len ∨
        4294967295 ≤ 3)) ∧
    (lfhPlain sampleEntry false ∧ cdfhPlain sampleEntry 3 false) := by
  have h := zip64_header_trigger sampleEntry 3 false
  refine ⟨⟨by decide, by decide⟩, h.2.1 (by decide), h.2.2.2 (by decide)⟩

lemma eocd_needs_iff (cdo cds n : Nat) (force_zip64 : Bool) :
    eocd_needs_zip64 cdo cds n force_zip64 = true ↔
      (force_zip64 = true ∨ 65535 ≤ n ∨ 4294967295 ≤ cds ∨ 4294967295 ≤ cdo) := by
  simp [eocd_needs_zip64]
  tauto

/-- C5 (amended): the trailer starts with the ZIP64 end-of-central-directory
record iff `force_zip64 ∨ num_entries ≥ 0xFFFF ∨ cd_size ≥ 0xFFFFFFFF ∨
cd_offset ≥ 0xFFFFFFFF`; in that case the ZIP64 locator (signature
`0x07064b50`, offset `cd_offset + cd_size`) follows at byte 56 and the
trailer is 98 bytes, else it is the bare 22-byte record; and the classic
end-of-central-directory record is always the last 22 bytes, with each of
`num_entries`, `cd_size`, `cd_offset` replaced by its sentinel exactly when
it reaches `0xFFFF` / `0xFFFFFFFF`, and zip comment length 0. -/
theorem eocd_layout (cdo cds n : Nat) (force_zip64 : Bool) :
    ((end_of_central_directory cdo cds n force_zip64).take 4 =
        u32le 0x06064b50 ↔
      (force_zip64 = true ∨ 65535 ≤ n ∨ 4294967295 ≤ cds ∨
        4294967295 ≤ cdo)) ∧
    ((force_zip64 = true ∨ 65535 ≤ n ∨ 4294967295 ≤ cds ∨ 4294967295 ≤ cdo) →
      ((end_of_central_directory cdo cds n force_zip64).drop 56).take 4 =
          u32le 0x07064b50 ∧
        ((end_of_central_directory cdo cds n force_zip64).drop 64).take 8 =
          u64le (cdo + cds) ∧
        (end_of_central_directory cdo cds n force_zip64).length = 98) ∧
    (¬(force_zip64 = true ∨ 65535 ≤ n ∨ 4294967295 ≤ cds ∨
        4294967295 ≤ cdo) →
      (end_of_central_directory cdo cds n force_zip64).length = 22) ∧
    (end_of_central_directory cdo cds n force_zip64).drop
        ((end_of_central_directory cdo cds n force_zip64).length - 22) =
      u32le 0x06054b50 ++ u16le 0 ++ u16le 0 ++
      u16le (if 65535 ≤ n then 65535 else n) ++
      u16le (if 65535 ≤ n then 65535 else n) ++
      u32le (if 4294967295 ≤ cds then 4294967295 else cds) ++
      u32le (if 4294967295 ≤ cdo then 4294967295 else cdo) ++
      u16le 0 := by
  by_cases hc : force_zip64 = true ∨ 65535 ≤ n ∨ 4294967295 ≤ cds ∨
      4294967295 ≤ cdo
  · have hnd : eocd_needs_zip64 cdo cds n force_zip64 = true :=
      (eocd_needs_iff cdo cds n force_zip64).mpr hc
    refine ⟨⟨fun _ => hc, fun _ => ?_⟩, fun _ => ⟨?_, ?_, ?_⟩,
      fun h => absurd hc h, ?_⟩
    · simp [end_of_central_directory, hnd, u32le, u16le, u64le]
    · simp [end_of_central_directory, hnd, u32le, u16le, u64le]
    · simp [end_of_central_directory, hnd, u32le, u16le, u64le]
    · simp [end_of_central_directory, hnd, u32le, u16le, u64le]
    · simp [end_of_central_directory, hnd, u32le, u16le, u64le]
  · have hnd : eocd_needs_zip64 cdo cds n force_zip64 = false := by
      rw [Bool.eq_false_iff]
      exact fun h => hc ((eocd_needs_iff cdo cds n force_zip64).mp h)
    refine ⟨⟨fun hz => ?_, fun h => absurd h hc⟩, fun h => absurd h hc,
      fun _ => ?_, ?_⟩
    · exfalso
      simp [end_of_central_directory, hnd, u32le] at hz
    · simp [end_of_central_directory, hnd, u32le, u16le]
    · simp [end_of_central_directory, hnd, u32le, u16le]

/-- Counterexample to C5 as stated: at `num_entries = 0xFFFF = 65535`
(which is below the claim's `2^16` threshold) with everything else zero
and `force_zip64 = false`, the code emits the ZIP64
end-of-central-directory record anyway (the code's trigger is
`num_entries >= 0xFFFF`, not `>= 2^16`). -/
theorem eocd_layout_cex :
    ¬(false = true ∨ 65536 ≤ 65535 ∨ 4294967296 ≤ (0:Nat) ∨
        4294967296 ≤ (0:Nat)) ∧
    (end_of_central_directory 0 0 65535 false).take 4 = u32le 0x06064b50 ∧
    (end_of_central_directory 0 0 65535 false).length ≠ 22 := by
  refine ⟨by decide, by decide, by decide⟩

/-- Witness for C5 at `cd_offset = 10`, `cd_size = 56`, `num_entries = 1`,
`force_zip64 = true`: the ZIP64 record and locator are present. -/
theorem eocd_layout_witness :
    (true = true ∨ 65535 ≤ 1 ∨ 4294967295 ≤ 56 ∨ 4294967295 ≤ 10) ∧
    ((end_of_central_directory 10 56 1 true).drop 56).take 4 =
        u32le 0x07064b50 ∧
      ((end_of_central_directory 10 56 1 true).drop 64).take 8 =
        u64le (10 + 56) ∧
      (end_of_central_directory 10 56 1 true).length = 98 := by
  refine ⟨Or.inl rfl, (eocd_layout 10 56 1 true).2.1 (Or.inl rfl)⟩

/-- C6: the packed DOS time/date match the spec's test vector at
`2006-10-11T15:40:56Z`; but for an instant before 1980 the year field does
not saturate to 0: `(year - 1980)` is computed in i32 (where
`saturating_sub` only saturates at the i32 bounds) and then truncated
`as u16`, so `1979-12-31T23:59:58Z` yields a wrapped year field of
`0xFFFF` and `zip_date = 0xFF9F`, not the `0x019F` that a year field of 0
would give. -/
theorem zip_date_time_values :
    zip_time ⟨2006, 10, 11, 15, 40, 56, 1160581256⟩ = 0x7d1c ∧
    zip_date ⟨2006, 10, 11, 15, 40, 56, 1160581256⟩ = 0x354b ∧
    zip_date ⟨1979, 12, 31, 23, 59, 58, 315532798⟩ = 0xFF9F ∧
    zip_date ⟨1979, 12, 31, 23, 59, 58, 315532798⟩ ≠
      ((31 ||| (12 <<< 5) % 65536) ||| (0 <<< 9) % 65536) := by
  refine ⟨by decide, by decide, by decide, by decide⟩

/-- Rust `char::is_whitespace`: the Unicode White_Space code points. -/
def rustIsWhitespace (c : Char) : Bool :=
  (9 ≤ c.toNat && c.toNat ≤ 13) || c.toNat = 32 || c.toNat = 133 ||
  c.toNat = 160 || c.toNat = 5760 || (8192 ≤ c.toNat && c.toNat ≤ 8202) ||
  c.toNat = 8232 || c.toNat = 8233 || c.toNat = 8239 || c.toNat = 8287 ||
  c.toNat = 12288

/-- Rust `str::trim`: strip leading and trailing whitespace. -/
def rustTrim (s : List Char) : List Char :=
  ((s.dropWhile rustIsWhitespace).reverse.dropWhile rustIsWhitespace).reverse

/-- ASCII digit test, as used by u64 parsing. -/
def isAsciiDigit (c : Char) : Bool := 48 ≤ c.toNat && c.toNat ≤ 57

/-- Numeric value of a digit string. -/
def digitsVal (s : List Char) : Nat :=
  s.foldl (fun acc c => acc * 10 + (c.toNat - 48)) 0

/-- Rust `str::parse::<u64>()`: an optional leading `+`, then one or more
ASCII digits whose value fits in 64 bits; anything else is an error. -/
def parseU64 (s : List Char) : Option Nat :=
  let digits := if s.head? = some '+' then s.tail else s
  if digits.isEmpty then none
  else if digits.all isAsciiDigit then
    if digitsVal digits < 18446744073709551616 then some (digitsVal digits)
    else none
  else none

/-- The `bytes=` unit tag required by `parse_range`. -/
def rangeUnit : List Char := ['b', 'y', 't', 'e', 's', '=']

/-- The trimmed remainder after the `bytes=` tag:
`&range_val["bytes=".len()..].trim()`. -/
def rangeBody (range_val : List Char) : List Char := rustTrim (range_val.drop 6)

/-- The body of `parse_range` after the `bytes=` tag has been stripped and
the remainder trimmed. -/
def parseBody (body : List Char) (total_len : Nat) :
    Except String (Option Range) :=
  if body.contains ',' then .ok none
  else if body.head? = some '-' then
      match parseU64 body.tail with
      | none => .error "invalid range number"
      | some s =>
        if total_len ≤ s then .ok none
        else .ok (some ⟨total_len - s, total_len⟩)
    else if body.getLast? = some '-' then
      match parseU64 body.dropLast with
      | none => .error "invalid range number"
      | some s =>
        if total_len ≤ s then .ok none
        else .ok (some ⟨s, total_len⟩)
    else
      match body.findIdx? (fun c => c = '-') with
      | some h =>
        match parseU64 (body.take h), parseU64 (body.drop (h + 1)) with
        | some s, some e =>
          if total_len ≤ e ∨ e < s then .ok none
          else .ok (some ⟨s, e + 1⟩)
        | none, _ => .error "invalid range number"
        | some _, none => .error "invalid range number"
      | none => .error "invalid range"

/-- src/serve_range.rs `parse_range` (src/stream_range.rs has the same
function): parse an HTTP Range header value against a total length. -/
def parse_range (range_val : List Char) (total_len : Nat) :
    Except String (Option Range) :=
  if rangeUnit.isPrefixOf range_val then parseBody (rangeBody range_val) total_len
  else .error "invalid range unit"

deriving instance DecidableEq for Except

lemma char_digit_not_dash_comma (c : Char) (h : isAsciiDigit c = true) :
    c ≠ '-' ∧ c ≠ ',' := by
  constructor <;> intro hc <;> subst hc <;> exact absurd h (by decide)

lemma parseU64_shape (s : List Char) (n : Nat) (h : parseU64 s = some n) :
    ∃ ds : List Char, (s = ds ∨ s = '+' :: ds) ∧ ds ≠ [] ∧
      ∀ c ∈ ds, isAsciiDigit c = true := by
  by_cases hp : s.head? = some '+'
  · have hs : s = '+' :: s.tail := by
      cases s with
      | nil => simp at hp
      | cons a as =>
        simp only [List.head?_cons, Option.some.injEq] at hp
        simp [hp]
    refine ⟨s.tail, Or.inr hs, ?_, ?_⟩
    · intro hnil
      simp [parseU64, hp, hnil] at h
    · by_cases he : s.tail.isEmpty
      · simp [parseU64, hp, he] at h
      · by_cases ha : s.tail.all isAsciiDigit
        · exact List.all_eq_true.mp ha
        · simp [parseU64, hp, he, ha] at h
  · refine ⟨s, Or.inl rfl, ?_, ?_⟩
    · intro hnil
      simp [parseU64, hp, hnil] at h
    · by_cases he : s.isEmpty
      · simp [parseU64, hp, he] at h
      · by_cases ha : s.all isAsciiDigit
        · exact List.all_eq_true.mp ha
        · simp [parseU64, hp, he, ha] at h

lemma token_chars (s : List Char) (n : Nat) (h : parseU64 s = some n) :
    ∀ c ∈ s, c ≠ '-' ∧ c ≠ ',' := by
  obtain ⟨ds, hs, _, hall⟩ := parseU64_shape s n h
  intro c hc
  rcases hs with rfl | rfl
  · exact char_digit_not_dash_comma c (hall c hc)
  · rcases List.mem_cons.mp hc with rfl | hc2
    · exact ⟨by decide, by decide⟩
    · exact char_digit_not_dash_comma c (hall c hc2)

lemma token_ne_nil (s : List Char) (n : Nat) (h : parseU64 s = some n) :
    s ≠ [] := by
  obtain ⟨ds, hs, hne, _⟩ := parseU64_shape s n h
  rcases hs with rfl | rfl
  · exact hne
  · simp

lemma token_comma_not_mem (s : List Char) (n : Nat) (h : parseU64 s = some n) :
    (',' : Char) ∉ s :=
  fun hc => (token_chars s n h ',' hc).2 rfl

lemma findIdx?_first (p : Char → Bool) (l1 l2 : List Char) (x : Char)
    (hx : p x = true) (h : ∀ c ∈ l1, p c = false) :
    ∀ i, List.findIdx? p (l1 ++ x :: l2) i = some (l1.length + i) := by
  induction l1 with
  | nil => intro i; simp [List.findIdx?_cons, hx]
  | cons c cs ih =>
    intro i
    rw [List.cons_append, List.findIdx?_cons, h c (List.mem_cons_self c cs)]
    simp only [Bool.false_eq_true, if_false]
    rw [ih (fun d hd => h d (List.mem_cons_of_mem c hd)) (i + 1)]
    congr 1
    simp only [List.length_cons]
    omega

lemma parseBody_ne_unit (body : List Char) (t : Nat) :
    parseBody body t ≠ .error "invalid range unit" := by
  intro heq
  simp only [parseBody] at heq
  split at heq <;> try split at heq
  all_goals (try split at heq)
  all_goals (try split at heq)
  all_goals (try split at heq)
  all_goals (try split at heq)
  all_goals simp_all

lemma parse_range_ne_unit (s : List Char) (t : Nat)
    (hp : rangeUnit.isPrefixOf s = true) :
    parse_range s t ≠ .error "invalid range unit" := by
  simp only [parse_range, hp, if_true]
  exact parseBody_ne_unit (rangeBody s) t

lemma contains_comma_false {l : List Char} (h : (',' : Char) ∉ l) :
    l.contains ',' = false := by
  simp [h]

/-- Branch behaviour of `parseBody` on a comma-bearing body. -/
lemma parseBody_comma (body : List Char) (t : Nat)
    (hc : body.contains ',' = true) : parseBody body t = .ok none := by
  simp only [parseBody, hc, if_true]

/-- Branch behaviour of `parseBody` on the suffix form `-N`. -/
lemma parseBody_suffix (ds : List Char) (t : Nat)
    (hnc : ('-' :: ds).contains ',' = false) :
    parseBody ('-' :: ds) t =
      match parseU64 ds with
      | none => .error "invalid range number"
      | some n => if t ≤ n then .ok none
        else .ok (some ⟨t - n, t⟩) := by
  simp only [parseBody, hnc, Bool.false_eq_true, if_false, List.head?_cons,
    List.tail_cons]
  rw [if_pos trivial]

/-- Branch behaviour of `parseBody` on the open form `M-`. -/
lemma parseBody_open (ds : List Char) (t : Nat)
    (hnc : (ds ++ ['-']).contains ',' = false)
    (hhd : (ds ++ ['-']).head? ≠ some '-') :
    parseBody (ds ++ ['-']) t =
      match parseU64 ds with
      | none => .error "invalid range number"
      | some n => if t ≤ n then .ok none
        else .ok (some ⟨n, t⟩) := by
  simp only [parseBody, hnc, Bool.false_eq_true, if_false]
  rw [if_neg hhd, if_pos (List.getLast?_concat ds), List.dropLast_concat]

/-- Branch behaviour of `parseBody` on the closed form `M-N`. -/
lemma parseBody_closed (ds1 ds2 : List Char) (t : Nat)
    (hnc : (ds1 ++ '-' :: ds2).contains ',' = false)
    (hhd : (ds1 ++ '-' :: ds2).head? ≠ some '-')
    (hgl : (ds1 ++ '-' :: ds2).getLast? ≠ some '-')
    (hnd : ∀ c ∈ ds1, c ≠ '-') :
    parseBody (ds1 ++ '-' :: ds2) t =
      match parseU64 ds1, parseU64 ds2 with
      | some m, some n =>
        if t ≤ n ∨ n < m then .ok none else .ok (some ⟨m, n + 1⟩)
      | none, _ => .error "invalid range number"
      | some _, none => .error "invalid range number" := by
  have hfi : List.findIdx? (fun c => decide (c = '-'))
      (ds1 ++ '-' :: ds2) 0 = some ds1.length := by
    rw [findIdx?_first _ _ _ _ (by decide)
      (fun d hd => decide_eq_false (hnd d hd)) 0]
    simp
  have hdrop : (ds1 ++ '-' :: ds2).drop (ds1.length + 1) = ds2 := by
    have h0 := drop_at_append ds1 ['-'] ds2 (ds1.length + 1) (by simp)
    simpa using h0
  simp only [parseBody, hnc, Bool.false_eq_true, if_false]
  rw [if_neg hhd, if_neg hgl]
  simp only [hfi, List.take_left, hdrop]

/-- Branch behaviour of `parseBody` on the empty body. -/
lemma parseBody_empty (t : Nat) : parseBody [] t = .error "invalid range" := by
  rfl

/-- C2: behaviour of `parse_range`.  The unit error appears exactly when
the `bytes=` tag is missing; a comma in the (trimmed) remainder yields
`Ok(None)`; the three trimmed forms `-N`, `M-` and `M-N` map to the
claimed ranges with the out-of-range cases yielding `Ok(None)`; an empty
body is `invalid range`; and a non-integer token in any of the three
forms is `invalid range number`. -/
theorem parse_range_spec (s : List Char) (t : Nat) :
    (parse_range s t = .error "invalid range unit" ↔
      rangeUnit.isPrefixOf s = false) ∧
    (rangeUnit.isPrefixOf s = true → (rangeBody s).contains ',' = true →
      parse_range s t = .ok none) ∧
    (∀ ds n, rangeUnit.isPrefixOf s = true → rangeBody s = '-' :: ds →
      parseU64 ds = some n →
      parse_range s t =
        if t ≤ n then .ok none else .ok (some ⟨t - n, t⟩)) ∧
    (∀ ds n, rangeUnit.isPrefixOf s = true → rangeBody s = ds ++ ['-'] →
      parseU64 ds = some n →
      parse_range s t =
        if t ≤ n then .ok none else .ok (some ⟨n, t⟩)) ∧
    (∀ ds1 ds2 m n, rangeUnit.isPrefixOf s = true →
      rangeBody s = ds1 ++ '-' :: ds2 → parseU64 ds1 = some m →
      parseU64 ds2 = some n →
      parse_range s t =
        if t ≤ n ∨ n < m then .ok none else .ok (some ⟨m, n + 1⟩)) ∧
    (rangeUnit.isPrefixOf s = true → rangeBody s = [] →
      parse_range s t = .error "invalid range") ∧
    (∀ ds, rangeUnit.isPrefixOf s = true → rangeBody s = '-' :: ds →
      (rangeBody s).contains ',' = false → parseU64 ds = none →
      parse_range s t = .error "invalid range number") ∧
    (∀ ds, rangeUnit.isPrefixOf s = true → rangeBody s = ds ++ ['-'] →
      (rangeBody s).contains ',' = false →
      (rangeBody s).head? ≠ some '-' → parseU64 ds = none →
      parse_range s t = .error "invalid range number") ∧
    (∀ ds1 ds2, rangeUnit.isPrefixOf s = true →
      rangeBody s = ds1 ++ '-' :: ds2 →
      (rangeBody s).contains ',' = false →
      (rangeBody s).head? ≠ some '-' →
      (rangeBody s).getLast? ≠ some '-' →
      (∀ c ∈ ds1, c ≠ '-') →
      (parseU64 ds1 = none ∨ parseU64 ds2 = none) →
      parse_range s t = .error "invalid range number") := by
  have hpr : rangeUnit.isPrefixOf s = true →
      parse_range s t = parseBody (rangeBody s) t := fun hp => by
    simp only [parse_range, hp, if_true]
  refine ⟨⟨fun heq => ?_, fun hb => ?_⟩, fun hp hc => ?_, ?_, ?_, ?_,
    fun hp hbody => ?_, ?_, ?_, ?_⟩
  · by_contra hb
    have hp : rangeUnit.isPrefixOf s = true := by
      revert hb; cases rangeUnit.isPrefixOf s <;> simp
    exact parse_range_ne_unit s t hp heq
  · simp [parse_range, hb]
  · rw [hpr hp, parseBody_comma _ _ hc]
  · intro ds n hp hbody hds
    have hnc : ('-' :: ds).contains ',' = false := contains_comma_false (by
      intro hc
      rcases List.mem_cons.mp hc with hc | hc
      · exact absurd hc (by decide)
      · exact token_comma_not_mem ds n hds hc)
    rw [hpr hp, hbody, parseBody_suffix ds t hnc, hds]
  · intro ds n hp hbody hds
    obtain ⟨c, cs, rfl⟩ := List.exists_cons_of_ne_nil (token_ne_nil ds n hds)
    have hch := token_chars (c :: cs) n hds
    have hcne : c ≠ '-' := (hch c (List.mem_cons_self c cs)).1
    have hnc : ((c :: cs) ++ ['-']).contains ',' = false :=
      contains_comma_false (by
        intro hc
        rcases List.mem_append.mp hc with hc | hc
        · exact (hch ',' hc).2 rfl
        · simp at hc)
    have hhd : ((c :: cs) ++ ['-']).head? ≠ some '-' := by
      rw [List.cons_append, List.head?_cons]
      simp [hcne]
    rw [hpr hp, hbody, parseBody_open (c :: cs) t hnc hhd, hds]
  · intro ds1 ds2 m n hp hbody hm hn
    obtain ⟨c1, cs1, rfl⟩ := List.exists_cons_of_ne_nil (token_ne_nil ds1 m hm)
    obtain ⟨c2, cs2, rfl⟩ := List.exists_cons_of_ne_nil (token_ne_nil ds2 n hn)
    have hch1 := token_chars (c1 :: cs1) m hm
    have hch2 := token_chars (c2 :: cs2) n hn
    have hc1 : c1 ≠ '-' := (hch1 c1 (List.mem_cons_self _ _)).1
    have hnc : ((c1 :: cs1) ++ '-' :: (c2 :: cs2)).contains ',' = false :=
      contains_comma_false (by
        intro hc
        rcases List.mem_append.mp hc with hc | hc
        · exact (hch1 ',' hc).2 rfl
        · rcases List.mem_cons.mp hc with hc | hc
          · exact absurd hc (by decide)
          · exact (hch2 ',' hc).2 rfl)
    have hhd : ((c1 :: cs1) ++ '-' :: (c2 :: cs2)).head? ≠ some '-' := by
      rw [List.cons_append, List.head?_cons]
      simp [hc1]
    have hgl : ((c1 :: cs1) ++ '-' :: (c2 :: cs2)).getLast? ≠ some '-' := by
      rw [List.getLast?_append_of_ne_nil _ (by simp), List.getLast?_cons_cons]
      intro hx
      exact (hch2 '-' (List.mem_of_mem_getLast? hx)).1 rfl
    rw [hpr hp, hbody,
      parseBody_closed (c1 :: cs1) (c2 :: cs2) t hnc hhd hgl
        (fun d hd => (hch1 d hd).1), hm, hn]
  · rw [hpr hp, hbody, parseBody_empty]
  · intro ds hp hbody hc hds
    rw [hbody] at hc
    rw [hpr hp, hbody, parseBody_suffix ds t hc, hds]
  · intro ds hp hbody hc hhd hds
    rw [hbody] at hc hhd
    rw [hpr hp, hbody, parseBody_open ds t hc hhd, hds]
  · intro ds1 ds2 hp hbody hc hhd hgl hnd herr
    rw [hbody] at hc hhd hgl
    rcases herr with h1 | h2
    · rw [hpr hp, hbody, parseBody_closed ds1 ds2 t hc hhd hgl hnd, h1]
    · cases hm : parseU64 ds1
      · rw [hpr hp, hbody, parseBody_closed ds1 ds2 t hc hhd hgl hnd, hm]
      · rw [hpr hp, hbody, parseBody_closed ds1 ds2 t hc hhd hgl hnd, hm, h2]

/-- Witness for C2: the closed form `bytes=100-200` against total length
1000 parses to the half-open range `[100, 201)`. -/
theorem parse_range_spec_witness :
    (rangeUnit.isPrefixOf "bytes=100-200".toList = true ∧
      rangeBody "bytes=100-200".toList = ['1', '0', '0'] ++ '-' :: ['2', '0', '0'] ∧
      parseU64 ['1', '0', '0'] = some 100 ∧
      parseU64 ['2', '0', '0'] = some 200) ∧
    parse_range "bytes=100-200".toList 1000 = .ok (some ⟨100, 201⟩) := by
  have h := (parse_range_spec "bytes=100-200".toList 1000).2.2.2.2.1
    ['1', '0', '0'] ['2', '0', '0'] 100 200 (by decide) (by decide)
    (by decide) (by decide)
  refine ⟨⟨by decide, by decide, by decide, by decide⟩, ?_⟩
  rw [h]
  decide

/-- Modelled from the spec: `Range::limit_end` is used by
src/serve_range.rs `hyper_response` but the included stream_range.rs
predates it; the spec defines it as clamping `end` to `min(end, L)`. -/
def limit_end (r : Range) (l : Nat) : Range := ⟨r.start, min r.stop l⟩

/-- The two request headers `hyper_response` reads.  Header values are
modelled as strings (`to_str` is total in this model); `None` is an
absent header. -/
structure HyperRequest where
  range : Option (List Char)
  if_range : Option (List Char)

/-- The `If-Range` gate: `req.headers().get(IF_RANGE).map_or(true,
|val| val == etag)`. -/
def ifRangeMatches (req : HyperRequest) (etag : List Char) : Bool :=
  match req.if_range with
  | none => true
  | some w => w == etag

/-- The effective range of src/serve_range.rs `hyper_response`: the Range
header, kept only if the If-Range gate passes, parsed, with parse errors
collapsed to `None`. -/
def effectiveRange (req : HyperRequest) (etag : List Char) (full_len : Nat) :
    Option Range :=
  match req.range with
  | none => none
  | some v =>
    if ifRangeMatches req etag then
      match parse_range v full_len with
      | .ok r => r
      | .error _ => none
    else none

/-- The observable parts of the response `hyper_response` builds.
`content_range` holds the three numbers of `bytes S-E/L`;
`attachment_filename` the filename of the `Content-Disposition`
attachment header; `body` the chunks of the response stream (the stream
monitor passes data through unchanged). -/
structure HyperResponse where
  status : Nat
  content_type : List Char
  accept_ranges_bytes : Bool
  etag : List Char
  attachment_filename : List Char
  content_range : Option (Nat × Nat × Nat)
  content_length : Nat
  body : List (List Nat)

/-- src/serve_range.rs `hyper_response`. -/
def hyper_response (req : HyperRequest) (content_type etag filename : List Char)
    (data : StreamRange) : HyperResponse :=
  let full_len := data.len
  let full_range : Range := ⟨0, full_len⟩
  let range := effectiveRange req etag full_len
  let served := limit_end (range.getD full_range) full_len
  { status := if range.isSome then 206 else 200
    content_type := content_type
    accept_ranges_bytes := true
    etag := etag
    attachment_filename := filename
    content_range := range.map (fun r => (r.start, r.stop - 1, full_len))
    content_length := Range.len served
    body := data.stream_range served }

/-- C3: the Range header takes effect only when If-Range is absent or
equals the ETag — a mismatching If-Range yields 200 with the full body;
an effective range yields 206 with `Content-Range: bytes S-(E-1)/L`; the
Content-Type, Accept-Ranges, ETag and attachment filename headers are
always set; and Content-Length is the length of the range actually
served (the full length when none is). -/
theorem hyper_response_spec (req : HyperRequest) (ct etag fn : List Char)
    (data : StreamRange) :
    (∀ w, req.if_range = some w → w ≠ etag →
      (hyper_response req ct etag fn data).status = 200 ∧
      (hyper_response req ct etag fn data).content_range = none ∧
      (hyper_response req ct etag fn data).body =
        data.stream_range ⟨0, data.len⟩ ∧
      (hyper_response req ct etag fn data).content_length = data.len) ∧
    (∀ r, effectiveRange req etag data.len = some r →
      (hyper_response req ct etag fn data).status = 206 ∧
      (hyper_response req ct etag fn data).content_range =
        some (r.start, r.stop - 1, data.len)) ∧
    (hyper_response req ct etag fn data).content_type = ct ∧
    (hyper_response req ct etag fn data).accept_ranges_bytes = true ∧
    (hyper_response req ct etag fn data).etag = etag ∧
    (hyper_response req ct etag fn data).attachment_filename = fn ∧
    (hyper_response req ct etag fn data).content_length =
      Range.len (limit_end ((effectiveRange req etag data.len).getD
        ⟨0, data.len⟩) data.len) ∧
    (hyper_response req ct etag fn data).body =
      data.stream_range (limit_end ((effectiveRange req etag data.len).getD
        ⟨0, data.len⟩) data.len) ∧
    (effectiveRange req etag data.len = none →
      (hyper_response req ct etag fn data).content_length = data.len) := by
  refine ⟨fun w hw hne => ?_, fun r heff => ?_, rfl, rfl, rfl, rfl, rfl, rfl,
    fun heff => ?_⟩
  · have heff : effectiveRange req etag data.len = none := by
      unfold effectiveRange ifRangeMatches
      rw [hw]
      cases req.range with
      | none => rfl
      | some v => simp [hne]
    refine ⟨?_, ?_, ?_, ?_⟩ <;>
      simp [hyper_response, heff, limit_end, Range.len]
  · exact ⟨by simp [hyper_response, heff], by simp [hyper_response, heff]⟩
  · simp [hyper_response, heff, limit_end, Range.len]

/-- Witness for C3: a request with `Range: bytes=2-4` and a matching
`If-Range` against a ten-byte body is served 206 with
`Content-Range: bytes 2-4/10`. -/
theorem hyper_response_spec_witness :
    effectiveRange ⟨some "bytes=2-4".toList, some "E".toList⟩ "E".toList
      (bytesStream [0, 1, 2, 3, 4, 5, 6, 7, 8, 9]).len = some ⟨2, 5⟩ ∧
    ((hyper_response ⟨some "bytes=2-4".toList, some "E".toList⟩
        "application/zip".toList "E".toList "f.zip".toList
        (bytesStream [0, 1, 2, 3, 4, 5, 6, 7, 8, 9])).status = 206 ∧
      (hyper_response ⟨some "bytes=2-4".toList, some "E".toList⟩
        "application/zip".toList "E".toList "f.zip".toList
        (bytesStream [0, 1, 2, 3, 4, 5, 6, 7, 8, 9])).content_range =
        some (2, 4, 10)) := by
  have he : effectiveRange ⟨some "bytes=2-4".toList, some "E".toList⟩
      "E".toList (bytesStream [0, 1, 2, 3, 4, 5, 6, 7, 8, 9]).len =
      some ⟨2, 5⟩ := by decide
  exact ⟨he, (hyper_response_spec ⟨some "bytes=2-4".toList, some "E".toList⟩
    "application/zip".toList "E".toList "f.zip".toList
    (bytesStream [0, 1, 2, 3, 4, 5, 6, 7, 8, 9])).2.1 ⟨2, 5⟩ he⟩

/-- A reference to a file on S3, from src/s3url.rs. -/
structure S3Url where
  bucket : List Char
  key : List Char
  deriving DecidableEq, Repr

/-- The `impl fmt::Display for S3Url`: `s3://{bucket}/{key}`. -/
def S3Url.display (u : S3Url) : List Char :=
  "s3://".toList ++ u.bucket ++ '/' :: u.key

/-- The `impl FromStr for S3Url`: the anchored Rust regex
`^s3://([^/]+)/(.+)$`.  In Rust regex semantics `[^/]` matches any
character except `/` (newline included) and `.` matches any character
except `\n`; `$` without multi-line mode is end of input.  The bucket
group cannot contain a slash, so it necessarily ends at the first slash
after the scheme, and the greedy key group runs to the end of the input.
`None` models `Err(ParseS3UrlError)`. -/
def s3urlFromStr (s : List Char) : Option S3Url :=
  if "s3://".toList.isPrefixOf s then
    let rest := s.drop 5
    let bucket := rest.takeWhile (fun c => ¬ (c = '/'))
    match rest.dropWhile (fun c => ¬ (c = '/')) with
    | '/' :: key =>
      if bucket.isEmpty then none
      else if key.isEmpty then none
      else if key.contains '\n' then none
      else some ⟨bucket, key⟩
    | _ => none
  else none

lemma takeWhile_append_cons (p : Char → Bool) (b : List Char) (x : Char)
    (rest : List Char) (hb : ∀ c ∈ b, p c = true) (hx : p x = false) :
    (b ++ x :: rest).takeWhile p = b := by
  induction b with
  | nil => simp [List.takeWhile_cons, hx]
  | cons c cs ih =>
    rw [List.cons_append, List.takeWhile_cons, hb c (List.mem_cons_self c cs)]
    simp only [if_true]
    rw [ih (fun d hd => hb d (List.mem_cons_of_mem c hd))]

lemma dropWhile_append_cons (p : Char → Bool) (b : List Char) (x : Char)
    (rest : List Char) (hb : ∀ c ∈ b, p c = true) (hx : p x = false) :
    (b ++ x :: rest).dropWhile p = x :: rest := by
  induction b with
  | nil => simp [List.dropWhile_cons, hx]
  | cons c cs ih =>
    rw [List.cons_append, List.dropWhile_cons, hb c (List.mem_cons_self c cs)]
    simp only [if_true]
    exact ih (fun d hd => hb d (List.mem_cons_of_mem c hd))

/-- C10 (amended): `from_str` succeeds exactly on
`s3://<bucket>/<key>` where the bucket is one or more non-slash
characters and the key is one or more characters none of which is a
newline (the key may contain slashes; Rust's `.` does not match `\n`,
so a key containing a newline is rejected); the captures are the bucket
and the key, and Display round-trips every parsed value. -/
theorem s3url_from_str_spec :
    (∀ b k : List Char, b ≠ [] → '/' ∉ b → k ≠ [] → ('\n' : Char) ∉ k →
      s3urlFromStr ("s3://".toList ++ b ++ '/' :: k) = some ⟨b, k⟩) ∧
    (∀ s : List Char, ∀ u : S3Url, s3urlFromStr s = some u →
      u.bucket ≠ [] ∧ '/' ∉ u.bucket ∧ u.key ≠ [] ∧ ('\n' : Char) ∉ u.key ∧
      s = "s3://".toList ++ u.bucket ++ '/' :: u.key ∧
      S3Url.display u = s) := by
  constructor
  · intro b k hb hsb hk hnk
    have hpre : "s3://".toList.isPrefixOf
        ("s3://".toList ++ b ++ '/' :: k) = true := by
      rw [List.isPrefixOf_iff_prefix, List.append_assoc]
      exact List.prefix_append _ _
    have hdrop5 : ("s3://".toList ++ b ++ '/' :: k).drop 5 = b ++ '/' :: k := by
      have h0 := List.drop_left "s3://".toList (b ++ '/' :: k)
      simpa using h0
    have hchars : ∀ c ∈ b, (fun c => decide (¬ (c = '/'))) c = true := by
      intro c hc
      simp only [decide_not, Bool.not_eq_true']
      exact decide_eq_false (fun he => hsb (he ▸ hc))
    have htw : (b ++ '/' :: k).takeWhile (fun c => decide (¬ (c = '/'))) = b :=
      takeWhile_append_cons _ b '/' k hchars (by decide)
    have hdw : (b ++ '/' :: k).dropWhile (fun c => decide (¬ (c = '/'))) =
        '/' :: k :=
      dropWhile_append_cons _ b '/' k hchars (by decide)
    have hkc : k.contains '\n' = false := by simp [hnk]
    simp only [s3urlFromStr, hpre, if_true, hdrop5, htw, hdw, hkc,
      Bool.false_eq_true, if_false, List.isEmpty_eq_true, hb, hk]
  · intro s u h
    simp only [s3urlFromStr] at h
    by_cases hpre : "s3://".toList.isPrefixOf s
    · rw [if_pos hpre] at h
      obtain ⟨rest, hrest⟩ : ∃ rest, s = "s3://".toList ++ rest := by
        obtain ⟨t, ht⟩ := List.isPrefixOf_iff_prefix.mp hpre
        exact ⟨t, ht.symm⟩
      have hdrop5 : s.drop 5 = rest := by
        rw [hrest]
        have h0 := List.drop_left "s3://".toList rest
        simpa using h0
      rw [hdrop5] at h
      split at h
      · next key heq =>
        split at h
        · exact absurd h (by simp)
        · next hbe =>
          split at h
          · exact absurd h (by simp)
          · next hke =>
            split at h
            · exact absurd h (by simp)
            · next hkc =>
              have hu : u = ⟨rest.takeWhile (fun c => decide (¬ (c = '/'))),
                  key⟩ := by
                cases h
                rfl
              subst hu
              have hsplit : rest =
                  rest.takeWhile (fun c => decide (¬ (c = '/'))) ++
                  '/' :: key := by
                conv_lhs => rw [← List.takeWhile_append_dropWhile
                  (fun c => decide (¬ (c = '/'))) rest]
                rw [heq]
              have hs : s = "s3://".toList ++
                  rest.takeWhile (fun c => decide (¬ (c = '/'))) ++
                  '/' :: key := by
                rw [hrest, List.append_assoc]
                exact congrArg _ hsplit
              refine ⟨?_, ?_, ?_, ?_, ?_, ?_⟩
              · intro hnil
                rw [List.isEmpty_eq_true] at hbe
                exact hbe hnil
              · intro hmem
                have h1 := List.mem_takeWhile_imp hmem
                simp at h1
              · intro hnil
                rw [List.isEmpty_eq_true] at hke
                exact hke hnil
              · intro hmem
                rw [← List.elem_iff] at hmem
                revert hkc
                simp only [List.contains]
                rw [hmem]
                intro hkc
                exact hkc rfl
              · exact hs
              · exact hs.symm
      · exact absurd h (by simp)
    · rw [if_neg hpre] at h
      exact absurd h (by simp)

/-- Witness for C10: `s3://bu/k/x` parses to bucket `bu`, key `k/x`. -/
theorem s3url_from_str_spec_witness :
    ((['b', 'u'] : List Char) ≠ [] ∧ '/' ∉ (['b', 'u'] : List Char) ∧
      (['k', '/', 'x'] : List Char) ≠ [] ∧
      ('\n' : Char) ∉ (['k', '/', 'x'] : List Char)) ∧
    s3urlFromStr ("s3://".toList ++ ['b', 'u'] ++ '/' :: ['k', '/', 'x']) =
      some ⟨['b', 'u'], ['k', '/', 'x']⟩ := by
  refine ⟨⟨by decide, by decide, by decide, by decide⟩, ?_⟩
  exact s3url_from_str_spec.1 ['b', 'u'] ['k', '/', 'x']
    (by decide) (by decide) (by decide) (by decide)

/-- Counterexample to C10 as stated: the key `"\n"` is one character, so
the claim requires `s3://b/<newline>` to parse, but the Rust regex's
`.+` cannot match a newline and `from_str` fails. -/
theorem s3url_from_str_spec_cex :
    (['b'] : List Char) ≠ [] ∧ '/' ∉ (['b'] : List Char) ∧
    (['\n'] : List Char) ≠ [] ∧
    s3urlFromStr ("s3://".toList ++ ['b'] ++ '/' :: ['\n']) = none := by
  refine ⟨by decide, by decide, by decide, by decide⟩

/-- The sort key of chrono's `DateTime<Utc>` order.  chrono orders
instants chronologically; on the canonical calendar representation this
is the lexicographic order of the fields, with the timestamp (which on
canonical values is determined by them) appended. -/
def dtKey (t : DateTime) :
    Int ×ₗ (Nat ×ₗ (Nat ×ₗ (Nat ×ₗ (Nat ×ₗ (Nat ×ₗ Int))))) :=
  toLex (t.year, toLex (t.month, toLex (t.day, toLex (t.hour,
    toLex (t.minute, toLex (t.second, t.timestamp))))))

/-- A manifest entry, from src/upstream.rs `ZipFileDescription`. -/
structure ZipFileDescription where
  archive_name : List Char
  source : S3Url
  length : Nat
  crc : Nat
  last_modified : DateTime
  deriving DecidableEq

/-- The derived `Ord` of `ZipFileDescription`: lexicographic over the
fields in declaration order — `(archive_name, source, length, crc,
last_modified)` — with `S3Url`'s derived order `(bucket, key)` and
string order being the usual lexicographic order (for UTF-8 strings the
byte order Rust compares equals the code-point order used here). -/
def zfdKey (e : ZipFileDescription) :
    (List Char) ×ₗ ((List Char) ×ₗ ((List Char) ×ₗ (Nat ×ₗ (Nat ×ₗ
      (Int ×ₗ (Nat ×ₗ (Nat ×ₗ (Nat ×ₗ (Nat ×ₗ (Nat ×ₗ Int)))))))))) :=
  toLex (e.archive_name, toLex (e.source.bucket, toLex (e.source.key,
    toLex (e.length, toLex (e.crc, dtKey e.last_modified)))))

/-- The boolean comparison `Vec::sort` uses, via the derived `Ord`. -/
def zfdLE (a b : ZipFileDescription) : Bool := decide (zfdKey a ≤ zfdKey b)

/-- `res.entries.sort()` from src/upstream.rs `response`: a stable sort
by the derived order.  With the order total and antisymmetric the result
is independent of the input order of equal multisets. -/
def sortEntries (l : List ZipFileDescription) : List ZipFileDescription :=
  l.mergeSort zfdLE

/-- The decoded upstream manifest, from src/upstream.rs
`UpstreamResponse`. -/
structure UpstreamResponse where
  filename : List Char
  entries : List ZipFileDescription

/-- The manifest after `res.entries.sort()`: the value the ETag hash and
the ZIP layout are computed from. -/
def sortedManifest (m : UpstreamResponse) : UpstreamResponse :=
  ⟨m.filename, sortEntries m.entries⟩

lemma zfdKey_inj {a b : ZipFileDescription} (h : zfdKey a = zfdKey b) :
    a = b := by
  cases a with | mk an as al ac am =>
  cases b with | mk bn bs bl bc bm =>
  cases as
  cases bs
  cases am
  cases bm
  simp only [zfdKey, dtKey, toLex_inj, Prod.mk.injEq] at h
  simp_all

instance : IsAntisymm ZipFileDescription (fun a b => zfdKey a ≤ zfdKey b) :=
  ⟨fun a b h1 h2 => zfdKey_inj (le_antisymm h1 h2)⟩

lemma sortEntries_sorted (l : List ZipFileDescription) :
    List.Sorted (fun a b => zfdKey a ≤ zfdKey b) (sortEntries l) := by
  have h := @List.sorted_mergeSort ZipFileDescription zfdLE
    (fun a b c h1 h2 => decide_eq_true
      (le_trans (of_decide_eq_true h1) (of_decide_eq_true h2)))
    (fun a b => by
      rcases le_total (zfdKey a) (zfdKey b) with h | h <;> simp [zfdLE, h])
    l
  exact h.imp (fun hab => of_decide_eq_true hab)

lemma sortEntries_perm (l : List ZipFileDescription) :
    (sortEntries l).Perm l :=
  List.mergeSort_perm l zfdLE

/-- C8: two decoded manifests with the same filename and the same
multiset of entries sort to the same entry list, hence yield the same
sorted manifest, and every deterministic function of it — the ETag hash
and the ZIP layout in particular — agrees on both. -/
theorem upstream_sort_deterministic (m1 m2 : UpstreamResponse)
    (hf : m1.filename = m2.filename) (hp : m1.entries.Perm m2.entries) :
    sortEntries m1.entries = sortEntries m2.entries ∧
    sortedManifest m1 = sortedManifest m2 ∧
    (∀ (T : Type) (etagF : UpstreamResponse → T),
      etagF (sortedManifest m1) = etagF (sortedManifest m2)) := by
  have h : sortEntries m1.entries = sortEntries m2.entries :=
    List.eq_of_perm_of_sorted
      ((sortEntries_perm m1.entries).trans
        (hp.trans (sortEntries_perm m2.entries).symm))
      (sortEntries_sorted m1.entries) (sortEntries_sorted m2.entries)
  have hm : sortedManifest m1 = sortedManifest m2 := by
    rw [sortedManifest, sortedManifest, hf, h]
  exact ⟨h, hm, fun T etagF => congrArg etagF hm⟩

/-- Two concrete manifest entries. -/
def wEntryA : ZipFileDescription :=
  ⟨"a.txt".toList, ⟨"bkt".toList, "k1".toList⟩, 2, 7,
    ⟨2006, 10, 11, 15, 40, 56, 1160581256⟩⟩

/-- A second concrete manifest entry. -/
def wEntryB : ZipFileDescription :=
  ⟨"b.txt".toList, ⟨"bkt".toList, "k2".toList⟩, 3, 9,
    ⟨2018, 12, 6, 20, 15, 59, 1544127359⟩⟩

/-- Witness for C8: swapping two entries in a manifest does not change
the sorted entry list. -/
theorem upstream_sort_deterministic_witness :
    ((⟨"f.zip".toList, [wEntryB, wEntryA]⟩ : UpstreamResponse).filename =
        (⟨"f.zip".toList, [wEntryA, wEntryB]⟩ : UpstreamResponse).filename ∧
      List.Perm [wEntryB, wEntryA] [wEntryA, wEntryB]) ∧
    sortEntries [wEntryB, wEntryA] = sortEntries [wEntryA, wEntryB] := by
  refine ⟨⟨rfl, List.Perm.swap wEntryA wEntryB []⟩, ?_⟩
  exact (upstream_sort_deterministic ⟨"f.zip".toList, [wEntryB, wEntryA]⟩
    ⟨"f.zip".toList, [wEntryA, wEntryB]⟩ rfl
    (List.Perm.swap wEntryA wEntryB [])).1
